import Mathlib

/-!
Verification of the CDI hook applier (`lxd/device/cdi/hooks.go`).

The development shallowly embeds the Go code: paths are modelled as `String`
(lists of characters), the relevant `path/filepath` functions (`IsAbs`,
`Clean`, `Dir`, `Rel`, `Join`) are translated for Unix separators, the
filesystem state touched by `ApplyHooksToContainer` is an explicit record,
and the JSON decoding of the hooks file follows the semantics of
`encoding/json` for the `Hooks` structure (lower-case keys, unknown keys
ignored, missing keys left at their zero values, type mismatches rejected).
-/

set_option maxRecDepth 4096

/-! ## Path model: Go `path/filepath` on Unix, over `List Char` -/

/-- A path component (the text between separators). -/
abbrev Comp := List Char

/-- Split a character list at every separator, keeping empty fields
(the raw fields of `strings.Split(s, "/")`). -/
def splitSlash : List Char → List Comp
  | [] => [[]]
  | c :: cs =>
    if c = '/' then [] :: splitSlash cs
    else
      match splitSlash cs with
      | [] => [[c]]
      | f :: fs => (c :: f) :: fs

/-- The non-empty components of a path. -/
def fields (l : List Char) : List Comp :=
  (splitSlash l).filter (fun f => f ≠ [])

/-- Join components with a single separator (no leading or trailing one). -/
def joinComps : List Comp → List Char
  | [] => []
  | [f] => f
  | f :: fs => f ++ '/' :: joinComps fs

/-- Whether a path is rooted, i.e. begins with a separator
(Go `filepath.IsAbs` on Unix). -/
def isRootedL : List Char → Bool
  | '/' :: _ => true
  | _ => false

/-- The component stack of Go `filepath.Clean`: `.` is dropped, `..` pops a
previous component when possible, is dropped at the root of a rooted path and
is kept for an unrooted path. -/
def cleanStack (rooted : Bool) : List Comp → List Comp → List Comp
  | acc, [] => acc.reverse
  | acc, f :: fs =>
    if f = ['.'] then cleanStack rooted acc fs
    else if f = ['.', '.'] then
      match acc with
      | [] => if rooted then cleanStack rooted [] fs else cleanStack rooted [['.', '.']] fs
      | g :: acc2 =>
        if g = ['.', '.'] then cleanStack rooted (['.', '.'] :: g :: acc2) fs
        else cleanStack rooted acc2 fs
    else cleanStack rooted (f :: acc) fs

/-- Go `filepath.Clean` (Unix): lexical normalization. -/
def cleanL (l : List Char) : List Char :=
  if l = [] then ['.']
  else
    let rooted := isRootedL l
    let comps := cleanStack rooted [] (fields l)
    if rooted then '/' :: joinComps comps
    else if comps = [] then ['.'] else joinComps comps

/-- Go `filepath.Dir` (Unix): everything up to and including the final
separator, cleaned; `.` when the path holds no separator. -/
def dirL (l : List Char) : List Char :=
  let r := l.reverse.dropWhile (fun c => c ≠ '/')
  if r = [] then ['.'] else cleanL r.reverse

/-- Strip the longest common leading run of equal components from two lists
(the common-prefix loop of Go `filepath.Rel`). -/
def commonStrip : List Comp → List Comp → List Comp × List Comp
  | b :: bs, t :: ts => if b = t then commonStrip bs ts else (b :: bs, t :: ts)
  | bs, ts => (bs, ts)

/-- Go `filepath.Rel` (Unix): a relative path `r` with
`Join(base, r)` equivalent to `targ`. -/
def relL (basep targp : List Char) : Except String (List Char) :=
  let base := cleanL basep
  let targ := cleanL targp
  if base = targ then .ok ['.']
  else
    let base2 := if base = ['.'] then [] else base
    if isRootedL base2 ≠ isRootedL targ then
      .error "Rel: cannot make target relative to base"
    else
      let rest := commonStrip (fields base2) (fields targ)
      if rest.1.head? = some ['.', '.'] then
        .error "Rel: cannot make target relative to base"
      else
        .ok (joinComps (rest.1.map (fun _ => ['.', '.']) ++ rest.2))

/-- Go `filepath.IsAbs` on Unix. -/
def isAbs (p : String) : Bool := isRootedL p.data

/-- Go `filepath.Clean` on `String`. -/
def Clean (p : String) : String := String.mk (cleanL p.data)

/-- Go `filepath.Dir` on `String`. -/
def Dir (p : String) : String := String.mk (dirL p.data)

/-- Go `filepath.Rel` on `String`. -/
def RelPath (basep targp : String) : Except String String :=
  (relL basep.data targp.data).map String.mk

/-- Go `filepath.Join` of two elements: empty elements are skipped, the rest
is joined with a separator and cleaned. -/
def joinPath (a b : String) : String :=
  if a ≠ "" then Clean (a ++ "/" ++ b)
  else if b ≠ "" then Clean b
  else ""

/-- Go `filepath.Join` of three elements. -/
def joinPath3 (a b c : String) : String :=
  if a ≠ "" then Clean (a ++ "/" ++ b ++ "/" ++ c)
  else if b ≠ "" then Clean (b ++ "/" ++ c)
  else if c ≠ "" then Clean c
  else ""

/-- Go `strings.TrimSpace`: surrounding whitespace removed. -/
def isSpaceChar (c : Char) : Bool :=
  c = ' ' ∨ c = '\t' ∨ c = '\n' ∨ c = '\r'

/-- Trim surrounding whitespace from a string (`strings.TrimSpace`). -/
def trimSpace (s : String) : String :=
  String.mk (((s.data.dropWhile isSpaceChar).reverse.dropWhile isSpaceChar).reverse)

/-! ## The hook data model (`SymlinkEntry`, `Hooks`) -/

/-- A symlink entry of the hook plan (`SymlinkEntry` in `hooks.go`). -/
structure SymlinkEntry where
  Target : String
  Link : String
deriving DecidableEq, Repr

/-- The decoded hook plan (`Hooks` in `hooks.go`). -/
structure Hooks where
  ContainerRootFS : String
  LDCacheUpdates : List String
  Symlinks : List SymlinkEntry
deriving DecidableEq, Repr

/-- `resolveTargetRelativeToLink` from `hooks.go`: convert a link's target
into a path relative to the link's path. -/
def resolveTargetRelativeToLink (link target : String) : Except String String :=
  if ¬ isAbs link then
    .error ("The link must be an absolute path: " ++ link ++ " (target: " ++ target ++ ")")
  else if ¬ isAbs target then
    .ok target
  else
    let linkClean := Clean link
    let targetClean := Clean target
    let linkDir := Dir linkClean
    RelPath linkDir targetClean

/-! ## Filesystem state touched by `ApplyHooksToContainer`

The state records the symlink table (path and stored target), the directories
created with `MkdirAll`, the line contents of the linker conf file
`<root>/etc/ld.so.conf.d/00-lxdcdi.conf` (`none` when the file does not
exist; the file is taken to be newline-terminated so it is a list of lines),
whether `<root>/etc/ld.so.cache` exists, and how many times the host
`/sbin/ldconfig -r <root>` subprocess was invoked.  Directory creation and
file writes are modelled as succeeding; `os.Symlink` fails with `ErrExist`
exactly when an entry already sits at the link path. -/
structure FS where
  links : List (String × String)
  dirs : List String
  conf : Option (List String)
  cache : Bool
  ldconfigCount : Nat
deriving DecidableEq, Repr

/-- Whether the filesystem already holds an entry at path `p`. -/
def hasEntry (fs : FS) (p : String) : Bool :=
  fs.links.any (fun e => e.1 = p)

/-- `os.MkdirAll` on the model: record the directory. -/
def mkdirAll (fs : FS) (d : String) : FS :=
  if d ∈ fs.dirs then fs else { fs with dirs := fs.dirs ++ [d] }

/-- The body of one iteration of the symlink loop after a successful
resolution: `MkdirAll` on the parent directory of the on-disk link path,
then `os.Symlink`, with `ErrExist` treated as success. -/
def applyOneSymlink (root : String) (fs : FS) (e : SymlinkEntry) (target : String) : FS :=
  let linkPath := joinPath root e.Link
  let fs1 := mkdirAll fs (Dir linkPath)
  if hasEntry fs1 linkPath then fs1
  else { fs1 with links := fs1.links ++ [(linkPath, target)] }

/-- The symlink loop of `ApplyHooksToContainer`: resolve each entry, create
the parent directory, create the symlink, tolerating `ErrExist`; stop with
the wrapped error at the first failed resolution. -/
def applySymlinks (root : String) : FS → List SymlinkEntry → FS × Option String
  | fs, [] => (fs, none)
  | fs, e :: rest =>
    match resolveTargetRelativeToLink e.Link e.Target with
    | .error msg => (fs, some ("Failed resolving a CDI symlink: " ++ msg))
    | .ok target => applySymlinks root (applyOneSymlink root fs e target) rest

/-- The in-place merge loop of `ApplyHooksToContainer` for an existing conf
file: an update is appended unless it is in the membership set, and is added
to the set once appended. -/
def mergeLinkerEntries (set : List String) : List String → List String
  | [] => []
  | u :: rest =>
    if u ∈ set then mergeLinkerEntries set rest
    else u :: mergeLinkerEntries (u :: set) rest

/-- The linker conf file contents after the merge: an existing file keeps its
lines (trimmed copies seed the membership set) and gains the accepted
updates; a missing file is created with every update, one per line. -/
def linkerConfAfter (old : Option (List String)) (updates : List String) : List String :=
  match old with
  | some lines => lines ++ mergeLinkerEntries (lines.map trimSpace) updates
  | none => updates

/-- The linker-cache block of `ApplyHooksToContainer`, executed only for a
non-empty update list: create the conf directory, merge the conf file,
remove the cache (absence tolerated) and run `ldconfig`. -/
def applyLdUpdates (root : String) (fs : FS) (updates : List String) : FS :=
  let fs2 := mkdirAll fs (joinPath3 root "etc" "ld.so.conf.d")
  let fs3 := { fs2 with conf := some (linkerConfAfter fs2.conf updates) }
  let fs4 := { fs3 with cache := false }
  { fs4 with ldconfigCount := fs4.ldconfigCount + 1 }

/-- The body of `ApplyHooksToContainer` after decoding: the symlink loop,
then, when the update list is non-empty, the linker-cache block. -/
def applyHooksDecoded (hooks : Hooks) (containerRootFSMount : String) (fs : FS) :
    FS × Option String :=
  match applySymlinks containerRootFSMount fs hooks.Symlinks with
  | (fs1, some e) => (fs1, some e)
  | (fs1, none) =>
    if 0 < hooks.LDCacheUpdates.length then
      (applyLdUpdates containerRootFSMount fs1 hooks.LDCacheUpdates, none)
    else (fs1, none)

/-! ## JSON decoding (`encoding/json` into `Hooks`) -/

deriving instance DecidableEq for Except

/-- A JSON value. -/
inductive Json where
  | null
  | bool (b : Bool)
  | num (n : Int)
  | str (s : String)
  | arr (elems : List Json)
  | obj (kvs : List (String × Json))

/-- Decode a JSON value into a string field holding `cur`: a JSON string
replaces it, `null` leaves it unchanged, anything else is a type error. -/
def decStr (cur : String) : Json → Except String String
  | Json.str s => .ok s
  | Json.null => .ok cur
  | _ => .error "cannot unmarshal value into field of type string"

/-- Decode the elements of a JSON array as strings. -/
def decStrElems : List Json → Except String (List String)
  | [] => .ok []
  | v :: vs =>
    match decStr "" v with
    | .error e => .error e
    | .ok s =>
      match decStrElems vs with
      | .error e => .error e
      | .ok rest => .ok (s :: rest)

/-- Decode a JSON value into a `[]string` field holding `cur`. -/
def decStrList (cur : List String) : Json → Except String (List String)
  | Json.null => .ok cur
  | Json.arr vs => decStrElems vs
  | _ => .error "cannot unmarshal value into field of type list of string"

/-- Fold the keys of a JSON object into a `SymlinkEntry`; unknown keys are
ignored, later keys win. -/
def decEntryFields : SymlinkEntry → List (String × Json) → Except String SymlinkEntry
  | cur, [] => .ok cur
  | cur, (k, v) :: rest =>
    if k = "target" then
      match decStr cur.Target v with
      | .error e => .error e
      | .ok s => decEntryFields { cur with Target := s } rest
    else if k = "link" then
      match decStr cur.Link v with
      | .error e => .error e
      | .ok s => decEntryFields { cur with Link := s } rest
    else decEntryFields cur rest

/-- Decode a JSON value into a `SymlinkEntry` holding `cur`. -/
def decEntry (cur : SymlinkEntry) : Json → Except String SymlinkEntry
  | Json.obj kvs => decEntryFields cur kvs
  | Json.null => .ok cur
  | _ => .error "cannot unmarshal value into field of type SymlinkEntry"

/-- Decode the elements of a JSON array as symlink entries. -/
def decEntryElems : List Json → Except String (List SymlinkEntry)
  | [] => .ok []
  | v :: vs =>
    match decEntry ⟨"", ""⟩ v with
    | .error e => .error e
    | .ok s =>
      match decEntryElems vs with
      | .error e => .error e
      | .ok rest => .ok (s :: rest)

/-- Decode a JSON value into a `[]SymlinkEntry` field holding `cur`. -/
def decSymlinks (cur : List SymlinkEntry) : Json → Except String (List SymlinkEntry)
  | Json.null => .ok cur
  | Json.arr vs => decEntryElems vs
  | _ => .error "cannot unmarshal value into field of type list of SymlinkEntry"

/-- Fold the keys of a JSON object into a `Hooks` value; unknown keys are
ignored, later keys win.  (The model matches keys exactly, the lower-case
form the plan writer emits.) -/
def decHooksFields : Hooks → List (String × Json) → Except String Hooks
  | cur, [] => .ok cur
  | cur, (k, v) :: rest =>
    if k = "container_rootfs" then
      match decStr cur.ContainerRootFS v with
      | .error e => .error e
      | .ok s => decHooksFields { cur with ContainerRootFS := s } rest
    else if k = "ld_cache_updates" then
      match decStrList cur.LDCacheUpdates v with
      | .error e => .error e
      | .ok l => decHooksFields { cur with LDCacheUpdates := l } rest
    else if k = "symlinks" then
      match decSymlinks cur.Symlinks v with
      | .error e => .error e
      | .ok l => decHooksFields { cur with Symlinks := l } rest
    else decHooksFields cur rest

/-- `json.Decoder.Decode` into a fresh `&Hooks{}`: a JSON object fills the
matching fields, `null` leaves the zero value, anything else is a type
error; missing fields stay at their zero values. -/
def decodeHooks : Json → Except String Hooks
  | Json.obj kvs => decHooksFields ⟨"", [], []⟩ kvs
  | Json.null => .ok ⟨"", [], []⟩
  | _ => .error "cannot unmarshal value into Hooks"

/-- `ApplyHooksToContainer` from `hooks.go`: decode the hooks file (here the
already-parsed JSON value standing for its contents) and apply it to the
container root filesystem state. -/
def ApplyHooksToContainer (hooksFile : Json) (containerRootFSMount : String) (fs : FS) :
    FS × Option String :=
  match decodeHooks hooksFile with
  | .error e => (fs, some ("Failed decoding the CDI hooks file: " ++ e))
  | .ok hooks => applyHooksDecoded hooks containerRootFSMount fs

/-! ## Auxiliary notions used by the statements -/

/-- A path component is in normal form: non-empty, not a dot element and
free of separators.  A cleaned rooted path is exactly a separator followed
by normal components joined by separators. -/
def normalComp (f : Comp) : Prop :=
  f ≠ [] ∧ f ≠ ['.'] ∧ f ≠ ['.', '.'] ∧ '/' ∉ f

instance (f : Comp) : Decidable (normalComp f) := by
  unfold normalComp; infer_instance

/-- Keep the first occurrence of every string, in order of first appearance.
Used to phrase the merge result the way the specification describes it. -/
def firstOccurrences : List String → List String
  | [] => []
  | u :: us => u :: firstOccurrences (us.filter (fun v => v ≠ u))
termination_by l => l.length
decreasing_by
  exact Nat.lt_succ_of_le (List.length_filter_le _ _)

/-- Modelled from the spec: the updates accepted by the merge against an
existing file are, in the order given, those not already present in the
trimmed existing lines, with exact duplicates suppressed. -/
def newEntriesSpec (existingTrimmed updates : List String) : List String :=
  firstOccurrences (updates.filter (fun u => decide (u ∉ existingTrimmed)))

/-! ## Lemmas on the path model -/

theorem splitSlash_ne_nil (l : List Char) : splitSlash l ≠ [] := by
  cases l with
  | nil => simp [splitSlash]
  | cons c cs =>
    by_cases h : c = '/'
    · simp [splitSlash, h]
    · simp only [splitSlash, if_neg h]
      cases hs : splitSlash cs with
      | nil => simp
      | cons f fs => simp

theorem splitSlash_append (a b : List Char) :
    splitSlash (a ++ '/' :: b) = splitSlash a ++ splitSlash b := by
  induction a with
  | nil => simp [splitSlash]
  | cons c cs ih =>
    by_cases h : c = '/'
    · subst h
      simp only [List.cons_append, splitSlash, if_pos rfl]
      simp [ih]
    · cases hs : splitSlash cs with
      | nil => exact absurd hs (splitSlash_ne_nil cs)
      | cons f fs =>
        have l1 : splitSlash ((c :: cs) ++ '/' :: b) = (c :: f) :: (fs ++ splitSlash b) := by
          simp only [List.cons_append, splitSlash, if_neg h, List.append_eq]
          rw [ih, hs]
          rfl
        have l2 : splitSlash (c :: cs) = (c :: f) :: fs := by
          simp only [splitSlash, if_neg h]
          rw [hs]
        rw [l1, l2]
        simp

theorem mem_splitSlash_noSlash (l : List Char) :
    ∀ f ∈ splitSlash l, '/' ∉ f := by
  induction l with
  | nil =>
    intro f hf
    have hfe : f = ([] : List Char) := by simpa [splitSlash] using hf
    simp [hfe]
  | cons c cs ih =>
    intro f hf
    by_cases h : c = '/'
    · simp only [splitSlash, if_pos h] at hf
      rcases List.mem_cons.mp hf with hf1 | hf1
      · simp [hf1]
      · exact ih f hf1
    · simp only [splitSlash, if_neg h] at hf
      cases hs : splitSlash cs with
      | nil => exact absurd hs (splitSlash_ne_nil cs)
      | cons g gs =>
        rw [hs] at hf
        rcases List.mem_cons.mp hf with hf1 | hf1
        · subst hf1
          intro hm
          rcases List.mem_cons.mp hm with hm1 | hm1
          · exact h hm1.symm
          · exact ih g (by rw [hs]; exact List.mem_cons_self _ _) hm1
        · exact ih f (by rw [hs]; exact List.mem_cons_of_mem _ hf1)

theorem fields_nil : fields [] = [] := by decide

theorem fields_append (a b : List Char) :
    fields (a ++ '/' :: b) = fields a ++ fields b := by
  simp [fields, splitSlash_append, List.filter_append]

theorem fields_cons_slash (b : List Char) : fields ('/' :: b) = fields b := by
  have h := fields_append [] b
  simpa [fields_nil] using h

theorem fields_all (l : List Char) :
    ∀ f ∈ fields l, f ≠ [] ∧ '/' ∉ f := by
  intro f hf
  have h1 := List.mem_filter.mp hf
  refine ⟨by simpa using h1.2, mem_splitSlash_noSlash l f h1.1⟩

theorem splitSlash_noSlash (f : List Char) (h : '/' ∉ f) : splitSlash f = [f] := by
  induction f with
  | nil => rfl
  | cons c cs ih =>
    have hc : ¬ c = '/' := fun e => h (e ▸ List.mem_cons_self _ _)
    have hcs : '/' ∉ cs := fun m => h (List.mem_cons_of_mem _ m)
    simp only [splitSlash, if_neg hc, ih hcs]

theorem fields_single (f : List Char) (hne : f ≠ []) (h : '/' ∉ f) :
    fields f = [f] := by
  simp [fields, splitSlash_noSlash f h, hne]

theorem joinComps_cons (f : Comp) (fs : List Comp) (h : fs ≠ []) :
    joinComps (f :: fs) = f ++ '/' :: joinComps fs := by
  cases fs with
  | nil => exact absurd rfl h
  | cons g gs => rfl

theorem joinComps_concat (fs : List Comp) (c : Comp) (h : fs ≠ []) :
    joinComps (fs ++ [c]) = joinComps fs ++ '/' :: c := by
  induction fs with
  | nil => exact absurd rfl h
  | cons f fs ih =>
    cases fs with
    | nil => rfl
    | cons g gs =>
      rw [List.cons_append, joinComps_cons f ((g :: gs) ++ [c]) (by simp),
        joinComps_cons f (g :: gs) (by simp), ih (by simp)]
      simp

theorem fields_joinComps (fs : List Comp)
    (h : ∀ f ∈ fs, f ≠ [] ∧ '/' ∉ f) : fields (joinComps fs) = fs := by
  induction fs with
  | nil => exact fields_nil
  | cons f fs ih =>
    have hf := h f (List.mem_cons_self _ _)
    cases fs with
    | nil => exact fields_single f hf.1 hf.2
    | cons g gs =>
      rw [joinComps_cons _ _ (by simp), fields_append,
        fields_single f hf.1 hf.2, ih (fun x hx => h x (List.mem_cons_of_mem _ hx))]
      simp

theorem cleanStack_chunk (rooted : Bool) (fs : List Comp) :
    ∀ (acc rest : List Comp), (∀ f ∈ fs, normalComp f) →
      cleanStack rooted acc (fs ++ rest) = cleanStack rooted (fs.reverse ++ acc) rest := by
  induction fs with
  | nil => intro acc rest _; simp
  | cons f fs ih =>
    intro acc rest h
    have hf := h f (List.mem_cons_self _ _)
    have h1 : ¬ f = ['.'] := hf.2.1
    have h2 : ¬ f = ['.', '.'] := hf.2.2.1
    rw [List.cons_append]
    show cleanStack rooted acc (f :: (fs ++ rest)) = _
    rw [show cleanStack rooted acc (f :: (fs ++ rest)) =
        cleanStack rooted (f :: acc) (fs ++ rest) by
      simp [cleanStack, if_neg h1, if_neg h2]]
    rw [ih (f :: acc) rest (fun x hx => h x (List.mem_cons_of_mem _ hx))]
    simp

theorem cleanStack_normal (rooted : Bool) (fs acc : List Comp)
    (h : ∀ f ∈ fs, normalComp f) :
    cleanStack rooted acc fs = acc.reverse ++ fs := by
  have := cleanStack_chunk rooted fs acc [] h
  simpa [cleanStack] using this

theorem cleanStack_rooted_normal (fs : List Comp) :
    ∀ acc : List Comp, (∀ g ∈ acc, normalComp g) →
      (∀ f ∈ fs, f ≠ [] ∧ '/' ∉ f) →
      ∀ x ∈ cleanStack true acc fs, normalComp x := by
  induction fs with
  | nil =>
    intro acc hacc _ x hx
    simp only [cleanStack, List.mem_reverse] at hx
    exact hacc x hx
  | cons f fs ih =>
    intro acc hacc hfs x hx
    have hf := hfs f (List.mem_cons_self _ _)
    have hfs2 : ∀ g ∈ fs, g ≠ [] ∧ '/' ∉ g := fun g hg => hfs g (List.mem_cons_of_mem _ hg)
    by_cases h1 : f = ['.']
    · rw [show cleanStack true acc (f :: fs) = cleanStack true acc fs by
        simp [cleanStack, if_pos h1]] at hx
      exact ih acc hacc hfs2 x hx
    · by_cases h2 : f = ['.', '.']
      · cases acc with
        | nil =>
          rw [show cleanStack true [] (f :: fs) = cleanStack true [] fs by
            simp [cleanStack, if_neg h1, if_pos h2]] at hx
          exact ih [] (by simp) hfs2 x hx
        | cons g acc2 =>
          have hg := hacc g (List.mem_cons_self _ _)
          rw [show cleanStack true (g :: acc2) (f :: fs) = cleanStack true acc2 fs by
            simp [cleanStack, if_neg h1, if_pos h2, if_neg hg.2.2.1]] at hx
          exact ih acc2 (fun y hy => hacc y (List.mem_cons_of_mem _ hy)) hfs2 x hx
      · rw [show cleanStack true acc (f :: fs) = cleanStack true (f :: acc) fs by
          simp [cleanStack, if_neg h1, if_neg h2]] at hx
        have hfn : normalComp f := ⟨hf.1, h1, h2, hf.2⟩
        exact ih (f :: acc)
          (fun y hy => (List.mem_cons.mp hy).elim (fun e => e ▸ hfn) (hacc y)) hfs2 x hx

theorem cleanStack_pop (R : List Comp) :
    ∀ (acc rest : List Comp), (∀ f ∈ R, normalComp f) →
      cleanStack true (R ++ acc) (List.replicate R.length ['.', '.'] ++ rest) =
        cleanStack true acc rest := by
  induction R with
  | nil => intro acc rest _; simp
  | cons g R ih =>
    intro acc rest h
    have hg := h g (List.mem_cons_self _ _)
    rw [List.length_cons, List.replicate_succ, List.cons_append, List.cons_append]
    rw [show cleanStack true (g :: (R ++ acc)) (['.', '.'] :: (List.replicate R.length ['.', '.'] ++ rest)) =
        cleanStack true (R ++ acc) (List.replicate R.length ['.', '.'] ++ rest) by
      simp [cleanStack, if_neg hg.2.2.1]]
    exact ih acc rest (fun x hx => h x (List.mem_cons_of_mem _ hx))

theorem map_const_comp (B : List Comp) (x : Comp) :
    B.map (fun _ => x) = List.replicate B.length x := by
  induction B with
  | nil => rfl
  | cons b B ih => simp [List.replicate_succ, ih]

theorem normal_ne_and_noSlash {f : Comp} (h : normalComp f) : f ≠ [] ∧ '/' ∉ f :=
  ⟨h.1, h.2.2.2⟩

theorem isRootedL_ne_nil {l : List Char} (h : isRootedL l = true) : l ≠ [] := by
  intro e; rw [e] at h; simp [isRootedL] at h

theorem isRootedL_cons (l : List Char) : isRootedL ('/' :: l) = true := rfl

theorem cleanL_abs (l : List Char) (h : isRootedL l = true) :
    cleanL l = '/' :: joinComps (cleanStack true [] (fields l)) ∧
      ∀ f ∈ cleanStack true [] (fields l), normalComp f := by
  constructor
  · rw [cleanL, if_neg (isRootedL_ne_nil h)]
    simp only [h]
    simp
  · exact cleanStack_rooted_normal (fields l) [] (by simp) (fields_all l)

theorem cleanL_canon (C : List Comp) (h : ∀ f ∈ C, normalComp f) :
    cleanL ('/' :: joinComps C) = '/' :: joinComps C := by
  rw [cleanL, if_neg (by simp)]
  simp only [isRootedL_cons]
  simp only [fields_cons_slash, fields_joinComps C (fun f hf => normal_ne_and_noSlash (h f hf)),
    cleanStack_normal true C [] h]
  simp

theorem dropWhile_noSlash (x : List Char) (hx : '/' ∉ x) (r : List Char) :
    List.dropWhile (fun c => c ≠ '/') (x ++ r) =
      List.dropWhile (fun c => c ≠ '/') r := by
  induction x with
  | nil => rfl
  | cons c cs ih =>
    have hc : c ≠ '/' := fun e => hx (e ▸ List.mem_cons_self _ _)
    rw [List.cons_append, List.dropWhile_cons, if_pos (by simp [hc])]
    exact ih (fun m => hx (List.mem_cons_of_mem _ m))

theorem dropWhile_cons_slash (r : List Char) :
    List.dropWhile (fun c => c ≠ '/') ('/' :: r) = '/' :: r := by
  rw [List.dropWhile_cons]
  simp

theorem dirL_slash (a : List Char) (c : Comp) (hc : '/' ∉ c) :
    dirL (a ++ '/' :: c) = cleanL (a ++ ['/']) := by
  simp only [dirL]
  rw [show (a ++ '/' :: c).reverse = c.reverse ++ ('/' :: a.reverse) by simp]
  rw [dropWhile_noSlash c.reverse (by simpa using hc) _, dropWhile_cons_slash]
  rw [if_neg (by simp)]
  simp

theorem cleanL_slash_trailing (D : List Comp) (h : ∀ f ∈ D, normalComp f) :
    cleanL ('/' :: (joinComps D ++ ['/'])) = '/' :: joinComps D := by
  rw [cleanL, if_neg (by simp)]
  simp only [isRootedL_cons]
  have hf : fields ('/' :: (joinComps D ++ ['/'])) = D := by
    rw [fields_cons_slash,
      show joinComps D ++ ['/'] = joinComps D ++ '/' :: [] from rfl,
      fields_append, fields_joinComps D (fun f hf => normal_ne_and_noSlash (h f hf)),
      fields_nil, List.append_nil]
  rw [hf, cleanStack_normal true D [] h]
  simp

theorem dirL_canon (C : List Comp) (h : ∀ f ∈ C, normalComp f) :
    dirL ('/' :: joinComps C) = '/' :: joinComps C.dropLast := by
  rcases List.eq_nil_or_concat C with hC | ⟨D, c, hC⟩
  · subst hC; decide
  · rw [List.concat_eq_append] at hC
    subst hC
    have hc : '/' ∉ c := (h c (by simp)).2.2.2
    have hD : ∀ f ∈ D, normalComp f := fun f hf => h f (by simp [hf])
    cases D with
    | nil =>
      rw [show ('/' :: joinComps ([] ++ [c])) = [] ++ '/' :: c by simp [joinComps]]
      rw [dirL_slash [] c hc]
      rw [show (([] ++ [c] : List Comp)).dropLast = ([] : List Comp) by simp]
      decide
    | cons d ds =>
      rw [joinComps_concat (d :: ds) c (by simp),
        show ('/' :: (joinComps (d :: ds) ++ '/' :: c)) = ('/' :: joinComps (d :: ds)) ++ '/' :: c
          from rfl,
        dirL_slash ('/' :: joinComps (d :: ds)) c hc,
        show ('/' :: joinComps (d :: ds)) ++ ['/'] = '/' :: (joinComps (d :: ds) ++ ['/']) from rfl,
        cleanL_slash_trailing (d :: ds) hD, List.dropLast_concat]

theorem commonStrip_decomp (B : List Comp) :
    ∀ T : List Comp, ∃ C, B = C ++ (commonStrip B T).1 ∧ T = C ++ (commonStrip B T).2 := by
  induction B with
  | nil =>
    intro T
    exact ⟨[], by simp [commonStrip], by cases T <;> simp [commonStrip]⟩
  | cons b bs ih =>
    intro T
    cases T with
    | nil => exact ⟨[], by simp [commonStrip], by simp [commonStrip]⟩
    | cons t ts =>
      by_cases h : b = t
      · subst h
        obtain ⟨C, h1, h2⟩ := ih ts
        refine ⟨b :: C, ?_, ?_⟩
        · simp only [commonStrip, if_pos rfl]
          rw [List.cons_append]
          exact congrArg (b :: ·) h1
        · simp only [commonStrip, if_pos rfl]
          rw [List.cons_append]
          exact congrArg (b :: ·) h2
      · exact ⟨[], by simp [commonStrip, h], by simp [commonStrip, h]⟩

theorem mem_dropLast_mem {x : Comp} : ∀ {l : List Comp}, x ∈ l.dropLast → x ∈ l := by
  intro l
  induction l with
  | nil => intro h; simp at h
  | cons a t ih =>
    intro h
    cases t with
    | nil => simp at h
    | cons b u =>
      rw [List.dropLast_cons₂] at h
      rcases List.mem_cons.mp h with h1 | h1
      · simp [h1]
      · exact List.mem_cons_of_mem _ (ih h1)

theorem clean_join_rel (C B2 T2 : List Comp)
    (hC : ∀ f ∈ C, normalComp f) (hB : ∀ f ∈ B2, normalComp f)
    (hT : ∀ f ∈ T2, normalComp f) :
    cleanL (('/' :: joinComps (C ++ B2)) ++ '/' ::
        joinComps (B2.map (fun _ => ['.', '.']) ++ T2)) =
      '/' :: joinComps (C ++ T2) := by
  have hCB : ∀ f ∈ C ++ B2, normalComp f := by
    intro f hf; rcases List.mem_append.mp hf with h1 | h1
    · exact hC f h1
    · exact hB f h1
  have hups : ∀ f ∈ B2.map (fun _ => (['.', '.'] : Comp)) ++ T2, f ≠ [] ∧ '/' ∉ f := by
    intro f hf
    rcases List.mem_append.mp hf with h1 | h1
    · obtain ⟨y, _, hy⟩ := List.mem_map.mp h1
      rw [← hy]; exact ⟨by simp, by simp⟩
    · exact normal_ne_and_noSlash (hT f h1)
  rw [show ('/' :: joinComps (C ++ B2)) ++ '/' ::
        joinComps (B2.map (fun _ => ['.', '.']) ++ T2) =
      '/' :: (joinComps (C ++ B2) ++ '/' ::
        joinComps (B2.map (fun _ => ['.', '.']) ++ T2)) from rfl]
  rw [cleanL, if_neg (by simp)]
  simp only [isRootedL_cons]
  rw [fields_cons_slash, fields_append,
    fields_joinComps (C ++ B2) (fun f hf => normal_ne_and_noSlash (hCB f hf)),
    fields_joinComps _ hups]
  rw [show (C ++ B2) ++ (B2.map (fun _ => (['.', '.'] : Comp)) ++ T2) =
      (C ++ B2) ++ B2.map (fun _ => (['.', '.'] : Comp)) ++ T2 by simp]
  rw [show (C ++ B2) ++ B2.map (fun _ => (['.', '.'] : Comp)) ++ T2 =
      (C ++ B2) ++ (B2.map (fun _ => (['.', '.'] : Comp)) ++ T2) by simp]
  rw [cleanStack_chunk true (C ++ B2) [] _ hCB]
  rw [map_const_comp B2 ['.', '.'], List.append_nil, List.reverse_append]
  rw [show B2.length = B2.reverse.length by simp]
  rw [cleanStack_pop B2.reverse C.reverse T2
    (fun f hf => hB f (List.mem_reverse.mp hf))]
  rw [cleanStack_normal true T2 C.reverse (fun f hf => hT f hf)]
  simp

theorem cleanL_dot_trailing (B : List Comp) (hB : ∀ f ∈ B, normalComp f) :
    cleanL (('/' :: joinComps B) ++ '/' :: ['.']) = '/' :: joinComps B := by
  rw [show ('/' :: joinComps B) ++ '/' :: ['.'] = '/' :: (joinComps B ++ '/' :: ['.']) from rfl]
  rw [cleanL, if_neg (by simp)]
  simp only [isRootedL_cons]
  rw [fields_cons_slash, fields_append,
    fields_joinComps B (fun f hf => normal_ne_and_noSlash (hB f hf)),
    fields_single ['.'] (by simp) (by simp)]
  rw [cleanStack_chunk true B [] [['.']] hB]
  simp [cleanStack]

theorem relL_canon (B T : List Comp) (hB : ∀ f ∈ B, normalComp f)
    (hT : ∀ f ∈ T, normalComp f) :
    ∃ r, relL ('/' :: joinComps B) ('/' :: joinComps T) = .ok r ∧
      cleanL (('/' :: joinComps B) ++ '/' :: r) = '/' :: joinComps T := by
  have hcb := cleanL_canon B hB
  have hct := cleanL_canon T hT
  by_cases heq : ('/' :: joinComps B : List Char) = '/' :: joinComps T
  · refine ⟨['.'], ?_, ?_⟩
    · simp only [relL]
      rw [hcb, hct, if_pos heq]
    · rw [cleanL_dot_trailing B hB, heq]
  · obtain ⟨C, hB1, hT1⟩ := commonStrip_decomp (fields ('/' :: joinComps B))
      (fields ('/' :: joinComps T))
    have hfB : fields ('/' :: joinComps B) = B := by
      rw [fields_cons_slash, fields_joinComps B (fun f hf => normal_ne_and_noSlash (hB f hf))]
    have hfT : fields ('/' :: joinComps T) = T := by
      rw [fields_cons_slash, fields_joinComps T (fun f hf => normal_ne_and_noSlash (hT f hf))]
    set P1 := (commonStrip (fields ('/' :: joinComps B)) (fields ('/' :: joinComps T))).1 with hP1def
    set P2 := (commonStrip (fields ('/' :: joinComps B)) (fields ('/' :: joinComps T))).2 with hP2def
    rw [hfB] at hB1
    rw [hfT] at hT1
    have hnP1 : ∀ f ∈ P1, normalComp f := by
      intro f hf; exact hB f (hB1 ▸ List.mem_append_right C hf)
    have hnP2 : ∀ f ∈ P2, normalComp f := by
      intro f hf; exact hT f (hT1 ▸ List.mem_append_right C hf)
    have hnC : ∀ f ∈ C, normalComp f := by
      intro f hf; exact hB f (hB1 ▸ List.mem_append_left P1 hf)
    have hhead : ¬ P1.head? = some ['.', '.'] := by
      cases hp : P1 with
      | nil => simp
      | cons b bs =>
        have hb : normalComp b := hnP1 b (by simp [hp])
        simp only [hp, List.head?_cons]
        intro hcon
        exact hb.2.2.1 (Option.some.inj hcon)
    refine ⟨joinComps (P1.map (fun _ => ['.', '.']) ++ P2), ?_, ?_⟩
    · simp only [relL]
      rw [hcb, hct, if_neg heq]
      have hbase2 : (if ('/' :: joinComps B : List Char) = ['.'] then ([] : List Char)
          else '/' :: joinComps B) = '/' :: joinComps B := by
        rw [if_neg (by simp)]
      rw [hbase2]
      rw [if_neg (by simp [isRootedL_cons])]
      rw [if_neg hhead]
    · rw [hB1, hT1]
      exact clean_join_rel C P1 P2 hnC hnP1 hnP2

theorem data_append (a b : String) : (a ++ b).data = a.data ++ b.data := by
  cases a; cases b; rfl

theorem resolve_nonabs_link (link target : String) (h : isAbs link = false) :
    resolveTargetRelativeToLink link target =
      .error ("The link must be an absolute path: " ++ link ++ " (target: " ++ target ++ ")") := by
  rw [resolveTargetRelativeToLink, if_pos (by simp [h])]

theorem resolve_relative_target (link target : String) (hl : isAbs link = true)
    (ht : isAbs target = false) :
    resolveTargetRelativeToLink link target = .ok target := by
  rw [resolveTargetRelativeToLink, if_neg (by simp [hl]), if_pos (by simp [ht])]

theorem resolve_roundtrip (link target : String) (hl : isAbs link = true)
    (ht : isAbs target = true) :
    ∃ r, resolveTargetRelativeToLink link target = .ok r ∧
      Clean (Dir (Clean link) ++ "/" ++ r) = Clean target := by
  obtain ⟨hclB, hnB⟩ := cleanL_abs link.data hl
  obtain ⟨hclT, hnT⟩ := cleanL_abs target.data ht
  set B := cleanStack true [] (fields link.data) with hBdef
  set T := cleanStack true [] (fields target.data) with hTdef
  have hnB2 : ∀ f ∈ B.dropLast, normalComp f := fun f hf => hnB f (mem_dropLast_mem hf)
  obtain ⟨r, hrel, hclean⟩ := relL_canon B.dropLast T hnB2 hnT
  have h1 : (Dir (Clean link)).data = '/' :: joinComps B.dropLast := by
    show dirL (cleanL link.data) = _
    rw [hclB]
    exact dirL_canon B hnB
  have h2 : (Clean target).data = '/' :: joinComps T := hclT
  refine ⟨String.mk r, ?_, ?_⟩
  · rw [resolveTargetRelativeToLink, if_neg (by simp [hl]), if_neg (by simp [ht])]
    show RelPath (Dir (Clean link)) (Clean target) = _
    rw [RelPath, h1, h2, hrel]
    rfl
  · have hd : (Dir (Clean link) ++ "/" ++ String.mk r).data =
        ('/' :: joinComps B.dropLast) ++ '/' :: r := by
      rw [data_append, data_append, h1]
      simp
    rw [Clean, hd, hclean, Clean, hclT]

theorem resolve_abs_ok (link target : String) (hl : isAbs link = true) :
    ∃ r, resolveTargetRelativeToLink link target = .ok r := by
  cases ht : isAbs target with
  | false => exact ⟨target, resolve_relative_target link target hl ht⟩
  | true =>
    obtain ⟨r, hr, _⟩ := resolve_roundtrip link target hl ht
    exact ⟨r, hr⟩

/-! ## Lemmas on the linker-configuration merge -/

theorem firstOccurrences_cons (u : String) (us : List String) :
    firstOccurrences (u :: us) = u :: firstOccurrences (us.filter (fun v => v ≠ u)) := by
  rw [firstOccurrences]

theorem mergeLinkerEntries_eq_spec (us : List String) :
    ∀ set : List String, mergeLinkerEntries set us =
      firstOccurrences (us.filter (fun u => decide (u ∉ set))) := by
  induction us with
  | nil => intro set; simp [mergeLinkerEntries, firstOccurrences]
  | cons u us ih =>
    intro set
    by_cases h : u ∈ set
    · rw [show mergeLinkerEntries set (u :: us) = mergeLinkerEntries set us by
        simp [mergeLinkerEntries, h]]
      rw [ih set, List.filter_cons]
      simp [h]
    · rw [show mergeLinkerEntries set (u :: us) = u :: mergeLinkerEntries (u :: set) us by
        simp [mergeLinkerEntries, h]]
      rw [ih (u :: set), List.filter_cons, if_pos (by simp [h]), firstOccurrences_cons]
      congr 1
      rw [List.filter_filter]
      refine congrArg firstOccurrences (List.filter_congr ?_)
      intro v _
      by_cases h1 : v = u <;> by_cases h2 : v ∈ set <;> simp [h1, h2]

theorem mem_firstOccurrences (n : Nat) :
    ∀ l : List String, l.length ≤ n → ∀ x, x ∈ firstOccurrences l → x ∈ l := by
  induction n with
  | zero =>
    intro l hl x hx
    cases l with
    | nil => simp [firstOccurrences] at hx
    | cons u us => simp at hl
  | succ n ih =>
    intro l hl x hx
    cases l with
    | nil => simp [firstOccurrences] at hx
    | cons u us =>
      rw [firstOccurrences_cons] at hx
      rcases List.mem_cons.mp hx with h1 | h1
      · simp [h1]
      · have hlen : (us.filter (fun v => v ≠ u)).length ≤ n :=
          le_trans (List.length_filter_le _ _) (Nat.succ_le_succ_iff.mp hl)
        exact List.mem_cons_of_mem _ (List.mem_of_mem_filter (ih _ hlen x h1))

theorem count_firstOccurrences (n : Nat) :
    ∀ l : List String, l.length ≤ n → ∀ x, (firstOccurrences l).count x ≤ 1 := by
  induction n with
  | zero =>
    intro l hl x
    cases l with
    | nil => simp [firstOccurrences]
    | cons u us => simp at hl
  | succ n ih =>
    intro l hl x
    cases l with
    | nil => simp [firstOccurrences]
    | cons u us =>
      rw [firstOccurrences_cons]
      have hlen : (us.filter (fun v => v ≠ u)).length ≤ n :=
        le_trans (List.length_filter_le _ _) (Nat.succ_le_succ_iff.mp hl)
      by_cases hx : x = u
      · subst hx
        rw [List.count_cons_self]
        have h0 : x ∉ firstOccurrences (us.filter (fun v => v ≠ x)) := by
          intro hmem
          have h1 := mem_firstOccurrences n _ hlen x hmem
          have h2 := List.of_mem_filter h1
          simp at h2
        rw [List.count_eq_zero_of_not_mem h0]
      · rw [List.count_cons_of_ne hx]
        exact ih _ hlen x

/-! ## Lemmas on the filesystem model -/

theorem mkdirAll_links (fs : FS) (d : String) : (mkdirAll fs d).links = fs.links := by
  unfold mkdirAll; split <;> rfl

theorem mkdirAll_conf (fs : FS) (d : String) : (mkdirAll fs d).conf = fs.conf := by
  unfold mkdirAll; split <;> rfl

theorem mkdirAll_cache (fs : FS) (d : String) : (mkdirAll fs d).cache = fs.cache := by
  unfold mkdirAll; split <;> rfl

theorem mkdirAll_count (fs : FS) (d : String) :
    (mkdirAll fs d).ldconfigCount = fs.ldconfigCount := by
  unfold mkdirAll; split <;> rfl

theorem hasEntry_links_eq {fs1 fs2 : FS} (h : fs1.links = fs2.links) (p : String) :
    hasEntry fs1 p = hasEntry fs2 p := by
  unfold hasEntry; rw [h]

theorem applyOneSymlink_conf (root : String) (fs : FS) (e : SymlinkEntry) (t : String) :
    (applyOneSymlink root fs e t).conf = fs.conf := by
  unfold applyOneSymlink
  dsimp only
  split
  · exact mkdirAll_conf fs _
  · exact mkdirAll_conf fs _

theorem applyOneSymlink_cache (root : String) (fs : FS) (e : SymlinkEntry) (t : String) :
    (applyOneSymlink root fs e t).cache = fs.cache := by
  unfold applyOneSymlink
  dsimp only
  split
  · exact mkdirAll_cache fs _
  · exact mkdirAll_cache fs _

theorem applyOneSymlink_count (root : String) (fs : FS) (e : SymlinkEntry) (t : String) :
    (applyOneSymlink root fs e t).ldconfigCount = fs.ldconfigCount := by
  unfold applyOneSymlink
  dsimp only
  split
  · exact mkdirAll_count fs _
  · exact mkdirAll_count fs _

theorem applyOneSymlink_mono (root : String) (fs : FS) (e : SymlinkEntry) (t : String)
    (p : String) (h : hasEntry fs p = true) :
    hasEntry (applyOneSymlink root fs e t) p = true := by
  unfold applyOneSymlink
  dsimp only
  split
  · rwa [hasEntry_links_eq (mkdirAll_links fs _) p]
  · show (hasEntry { mkdirAll fs (Dir (joinPath root e.Link)) with
      links := (mkdirAll fs (Dir (joinPath root e.Link))).links ++ [(joinPath root e.Link, t)] } p) = true
    unfold hasEntry
    rw [List.any_append]
    have h2 : hasEntry (mkdirAll fs (Dir (joinPath root e.Link))) p = true := by
      rwa [hasEntry_links_eq (mkdirAll_links fs _) p]
    unfold hasEntry at h2
    simp [h2]

theorem applyOneSymlink_self (root : String) (fs : FS) (e : SymlinkEntry) (t : String) :
    hasEntry (applyOneSymlink root fs e t) (joinPath root e.Link) = true := by
  unfold applyOneSymlink
  dsimp only
  split
  · assumption
  · unfold hasEntry
    rw [List.any_append]
    simp

theorem applyOneSymlink_noop (root : String) (fs : FS) (e : SymlinkEntry) (t : String)
    (h : hasEntry fs (joinPath root e.Link) = true) :
    (applyOneSymlink root fs e t).links = fs.links := by
  unfold applyOneSymlink
  dsimp only
  rw [if_pos (by rwa [hasEntry_links_eq (mkdirAll_links fs _)])]
  exact mkdirAll_links fs _

theorem applySymlinks_frame (root : String) (es : List SymlinkEntry) :
    ∀ fs : FS, (applySymlinks root fs es).1.conf = fs.conf ∧
      (applySymlinks root fs es).1.cache = fs.cache ∧
      (applySymlinks root fs es).1.ldconfigCount = fs.ldconfigCount := by
  induction es with
  | nil => intro fs; exact ⟨rfl, rfl, rfl⟩
  | cons e rest ih =>
    intro fs
    cases hres : resolveTargetRelativeToLink e.Link e.Target with
    | error msg => simp [applySymlinks, hres]
    | ok t =>
      simp only [applySymlinks, hres]
      obtain ⟨h1, h2, h3⟩ := ih (applyOneSymlink root fs e t)
      exact ⟨h1.trans (applyOneSymlink_conf root fs e t),
        h2.trans (applyOneSymlink_cache root fs e t),
        h3.trans (applyOneSymlink_count root fs e t)⟩

theorem applySymlinks_bad (root : String) (es : List SymlinkEntry) :
    ∀ fs : FS, (∃ e ∈ es, isAbs e.Link = false) →
      (applySymlinks root fs es).2.isSome = true ∧
      (applySymlinks root fs es).1 =
        (applySymlinks root fs (es.takeWhile (fun e => isAbs e.Link))).1 := by
  induction es with
  | nil =>
    intro fs h
    obtain ⟨e, he, _⟩ := h
    exact absurd he (List.not_mem_nil e)
  | cons e rest ih =>
    intro fs hex
    cases hl : isAbs e.Link with
    | false =>
      have herr := resolve_nonabs_link e.Link e.Target hl
      rw [List.takeWhile_cons, if_neg (by simp [hl])]
      simp [applySymlinks, herr]
    | true =>
      have hex2 : ∃ e2 ∈ rest, isAbs e2.Link = false := by
        obtain ⟨e2, he2, hbad⟩ := hex
        rcases List.mem_cons.mp he2 with h1 | h1
        · rw [h1] at hbad; rw [hbad] at hl; exact absurd hl (by simp)
        · exact ⟨e2, h1, hbad⟩
      obtain ⟨t, ht⟩ := resolve_abs_ok e.Link e.Target hl
      rw [List.takeWhile_cons, if_pos (by simp [hl])]
      simp only [applySymlinks, ht]
      exact ih (applyOneSymlink root fs e t) hex2

theorem applySymlinks_ok_spec (root : String) (es : List SymlinkEntry) :
    ∀ fs fs' : FS, applySymlinks root fs es = (fs', none) →
      (∀ e ∈ es, ∃ t, resolveTargetRelativeToLink e.Link e.Target = .ok t) ∧
      (∀ e ∈ es, hasEntry fs' (joinPath root e.Link) = true) ∧
      (∀ p, hasEntry fs p = true → hasEntry fs' p = true) := by
  induction es with
  | nil =>
    intro fs fs' h
    have hfs : fs = fs' := congrArg Prod.fst h
    subst hfs
    exact ⟨fun e he => absurd he (List.not_mem_nil e),
      fun e he => absurd he (List.not_mem_nil e), fun p hp => hp⟩
  | cons e rest ih =>
    intro fs fs' h
    cases hres : resolveTargetRelativeToLink e.Link e.Target with
    | error msg =>
      rw [show applySymlinks root fs (e :: rest) =
          (fs, some ("Failed resolving a CDI symlink: " ++ msg)) by
        simp [applySymlinks, hres]] at h
      exact absurd (congrArg Prod.snd h) (by simp)
    | ok t =>
      rw [show applySymlinks root fs (e :: rest) =
          applySymlinks root (applyOneSymlink root fs e t) rest by
        simp [applySymlinks, hres]] at h
      obtain ⟨h1, h2, h3⟩ := ih (applyOneSymlink root fs e t) fs' h
      refine ⟨?_, ?_, ?_⟩
      · intro e2 he2
        rcases List.mem_cons.mp he2 with hh | hh
        · exact ⟨t, hh ▸ hres⟩
        · exact h1 e2 hh
      · intro e2 he2
        rcases List.mem_cons.mp he2 with hh | hh
        · subst hh
          exact h3 _ (applyOneSymlink_self root fs e2 t)
        · exact h2 e2 hh
      · intro p hp
        exact h3 p (applyOneSymlink_mono root fs e t p hp)

theorem applySymlinks_rerun (root : String) (es : List SymlinkEntry) :
    ∀ fs : FS, (∀ e ∈ es, hasEntry fs (joinPath root e.Link) = true) →
      (∀ e ∈ es, ∃ t, resolveTargetRelativeToLink e.Link e.Target = .ok t) →
      (applySymlinks root fs es).2 = none ∧ (applySymlinks root fs es).1.links = fs.links := by
  induction es with
  | nil => intro fs _ _; exact ⟨rfl, rfl⟩
  | cons e rest ih =>
    intro fs hhas hres
    obtain ⟨t, ht⟩ := hres e (List.mem_cons_self _ _)
    rw [show applySymlinks root fs (e :: rest) =
        applySymlinks root (applyOneSymlink root fs e t) rest by
      simp [applySymlinks, ht]]
    have hlinks : (applyOneSymlink root fs e t).links = fs.links :=
      applyOneSymlink_noop root fs e t (hhas e (List.mem_cons_self _ _))
    obtain ⟨ha, hb⟩ := ih (applyOneSymlink root fs e t)
      (fun e2 he2 => by
        rw [hasEntry_links_eq hlinks]
        exact hhas e2 (List.mem_cons_of_mem _ he2))
      (fun e2 he2 => hres e2 (List.mem_cons_of_mem _ he2))
    exact ⟨ha, hb.trans hlinks⟩

theorem applyLdUpdates_links (root : String) (fs : FS) (us : List String) :
    (applyLdUpdates root fs us).links = fs.links := by
  rw [show (applyLdUpdates root fs us).links =
      (mkdirAll fs (joinPath3 root "etc" "ld.so.conf.d")).links from rfl]
  exact mkdirAll_links fs _

theorem applyHooksDecoded_of_symlinks_ok (hooks : Hooks) (root : String) (fs fsS : FS)
    (hpair : applySymlinks root fs hooks.Symlinks = (fsS, none)) :
    (applyHooksDecoded hooks root fs).2 = none ∧
    (applyHooksDecoded hooks root fs).1.links = fsS.links := by
  by_cases hlen : 0 < hooks.LDCacheUpdates.length
  · have h1 : applyHooksDecoded hooks root fs =
        (applyLdUpdates root fsS hooks.LDCacheUpdates, none) := by
      simp only [applyHooksDecoded]
      rw [hpair]
      exact if_pos hlen
    rw [h1]
    exact ⟨rfl, applyLdUpdates_links root fsS _⟩
  · have h1 : applyHooksDecoded hooks root fs = (fsS, none) := by
      simp only [applyHooksDecoded]
      rw [hpair]
      exact if_neg hlen
    rw [h1]
    exact ⟨rfl, rfl⟩

/-! ## The claims -/

/-- Claim C1, counterexample: a plan whose second symlink entry has the
relative link `rel` is rejected, yet the first (valid) entry's symlink has
already been created by then — the rejection does not happen before all
filesystem mutation. -/
theorem hooks_C1_counterexample :
    (applyHooksDecoded ⟨"", [], [⟨"/t1", "/lib/l1"⟩, ⟨"/t2", "rel"⟩]⟩ "/r"
        ⟨[], [], none, true, 0⟩).2.isSome = true ∧
    (applyHooksDecoded ⟨"", [], [⟨"/t1", "/lib/l1"⟩, ⟨"/t2", "rel"⟩]⟩ "/r"
        ⟨[], [], none, true, 0⟩).1.links ≠ [] := by
  constructor
  · rfl
  · decide

/-- Claim C1 (amended): a plan containing a symlink entry whose link is not
absolute is rejected with an error; the linker configuration, the linker
cache and the `ldconfig` invocation count are untouched, and no mutation is
performed from the first offending entry on — the state is exactly the one
produced by the valid entries preceding it. -/
theorem hooks_C1_amended (hooks : Hooks) (root : String) (fs : FS)
    (h : ∃ e ∈ hooks.Symlinks, isAbs e.Link = false) :
    (applyHooksDecoded hooks root fs).2.isSome = true ∧
    (applyHooksDecoded hooks root fs).1.conf = fs.conf ∧
    (applyHooksDecoded hooks root fs).1.cache = fs.cache ∧
    (applyHooksDecoded hooks root fs).1.ldconfigCount = fs.ldconfigCount ∧
    (applyHooksDecoded hooks root fs).1 =
      (applySymlinks root fs (hooks.Symlinks.takeWhile (fun e => isAbs e.Link))).1 := by
  obtain ⟨hsome, heq⟩ := applySymlinks_bad root hooks.Symlinks fs h
  obtain ⟨msg, hmsg⟩ := Option.isSome_iff_exists.mp hsome
  have hpair : applySymlinks root fs hooks.Symlinks =
      ((applySymlinks root fs hooks.Symlinks).1, some msg) := by
    rw [← hmsg]
  have happ : applyHooksDecoded hooks root fs =
      ((applySymlinks root fs hooks.Symlinks).1, some msg) := by
    simp only [applyHooksDecoded]
    rw [hpair]
  obtain ⟨hc1, hc2, hc3⟩ := applySymlinks_frame root hooks.Symlinks fs
  rw [happ]
  exact ⟨rfl, hc1, hc2, hc3, heq⟩

/-- Claim C1, witness for the amended statement. -/
theorem hooks_C1_witness :
    (∃ e ∈ (Hooks.mk "" [] [⟨"/t1", "/lib/l1"⟩, ⟨"/t2", "rel"⟩]).Symlinks,
      isAbs e.Link = false) ∧
    ((applyHooksDecoded ⟨"", [], [⟨"/t1", "/lib/l1"⟩, ⟨"/t2", "rel"⟩]⟩ "/r"
        ⟨[], [], none, true, 0⟩).2.isSome = true ∧
      (applyHooksDecoded ⟨"", [], [⟨"/t1", "/lib/l1"⟩, ⟨"/t2", "rel"⟩]⟩ "/r"
        ⟨[], [], none, true, 0⟩).1.conf = (FS.mk [] [] none true 0).conf ∧
      (applyHooksDecoded ⟨"", [], [⟨"/t1", "/lib/l1"⟩, ⟨"/t2", "rel"⟩]⟩ "/r"
        ⟨[], [], none, true, 0⟩).1.cache = (FS.mk [] [] none true 0).cache ∧
      (applyHooksDecoded ⟨"", [], [⟨"/t1", "/lib/l1"⟩, ⟨"/t2", "rel"⟩]⟩ "/r"
        ⟨[], [], none, true, 0⟩).1.ldconfigCount = (FS.mk [] [] none true 0).ldconfigCount ∧
      (applyHooksDecoded ⟨"", [], [⟨"/t1", "/lib/l1"⟩, ⟨"/t2", "rel"⟩]⟩ "/r"
        ⟨[], [], none, true, 0⟩).1 =
        (applySymlinks "/r" ⟨[], [], none, true, 0⟩
          ((Hooks.mk "" [] [⟨"/t1", "/lib/l1"⟩, ⟨"/t2", "rel"⟩]).Symlinks.takeWhile
            (fun e => isAbs e.Link))).1) :=
  ⟨by decide, hooks_C1_amended ⟨"", [], [⟨"/t1", "/lib/l1"⟩, ⟨"/t2", "rel"⟩]⟩ "/r"
    ⟨[], [], none, true, 0⟩ (by decide)⟩

/-- Claim C2, counterexample: when the configuration file does not exist,
every update is written verbatim — a duplicated update in the list is
written twice, not suppressed. -/
theorem hooks_C2_counterexample :
    linkerConfAfter none ["/opt/c/lib", "/opt/c/lib"] = ["/opt/c/lib", "/opt/c/lib"] ∧
    (linkerConfAfter none ["/opt/c/lib", "/opt/c/lib"]).count "/opt/c/lib" = 2 := by
  constructor
  · rfl
  · decide

/-- Claim C2 (amended): when the configuration file exists, its entries
after the merge are exactly the original lines followed by the updates not
already present as a trimmed existing line, in the given order, with exact
duplicates suppressed (each appended update appears at most once); when the
file did not previously exist, every update is written verbatim in order,
duplicates included. -/
theorem hooks_C2_amended (lines updates : List String) (_h : updates ≠ []) :
    linkerConfAfter (some lines) updates =
      lines ++ newEntriesSpec (lines.map trimSpace) updates ∧
    (∀ u, (newEntriesSpec (lines.map trimSpace) updates).count u ≤ 1) ∧
    linkerConfAfter none updates = updates := by
  refine ⟨?_, ?_, rfl⟩
  · show lines ++ mergeLinkerEntries (lines.map trimSpace) updates = _
    rw [mergeLinkerEntries_eq_spec updates (lines.map trimSpace)]
    rfl
  · intro u
    exact count_firstOccurrences
      ((updates.filter (fun u => decide (u ∉ lines.map trimSpace))).length) _ le_rfl u

/-- Claim C2, witness: the spec's own merge example. -/
theorem hooks_C2_witness :
    (["/opt/b/lib", "/opt/c/lib", "/opt/c/lib"] : List String) ≠ [] ∧
    (linkerConfAfter (some ["/opt/a/lib", "/opt/b/lib"])
        ["/opt/b/lib", "/opt/c/lib", "/opt/c/lib"] =
      ["/opt/a/lib", "/opt/b/lib"] ++
        newEntriesSpec ((["/opt/a/lib", "/opt/b/lib"] : List String).map trimSpace)
          ["/opt/b/lib", "/opt/c/lib", "/opt/c/lib"] ∧
      (∀ u, (newEntriesSpec ((["/opt/a/lib", "/opt/b/lib"] : List String).map trimSpace)
          ["/opt/b/lib", "/opt/c/lib", "/opt/c/lib"]).count u ≤ 1) ∧
      linkerConfAfter none ["/opt/b/lib", "/opt/c/lib", "/opt/c/lib"] =
        ["/opt/b/lib", "/opt/c/lib", "/opt/c/lib"]) :=
  ⟨by decide, hooks_C2_amended ["/opt/a/lib", "/opt/b/lib"]
    ["/opt/b/lib", "/opt/c/lib", "/opt/c/lib"] (by decide)⟩

/-- Claim C3, counterexample: the JSON object with no fields at all — in
particular lacking `symlinks` and `ld_cache_updates` — decodes successfully
to the zero-valued plan instead of failing. -/
theorem hooks_C3_counterexample :
    decodeHooks (Json.obj []) = Except.ok ⟨"", [], []⟩ := rfl

/-- Claim C3 (amended): a field of the wrong type makes decoding fail with
an error, but missing fields do not: they decode to their zero values, so
the empty object yields the fully-populated empty plan. -/
theorem hooks_C3_amended (s : String) (b : Bool) (n : Int) :
    (∃ e, decodeHooks (Json.obj [("ld_cache_updates", Json.str s)]) = .error e) ∧
    (∃ e, decodeHooks (Json.obj [("symlinks", Json.bool b)]) = .error e) ∧
    (∃ e, decodeHooks (Json.obj [("container_rootfs", Json.num n)]) = .error e) ∧
    decodeHooks (Json.obj []) = .ok ⟨"", [], []⟩ := by
  refine ⟨⟨_, rfl⟩, ⟨_, rfl⟩, ⟨_, rfl⟩, rfl⟩

/-- Claim C4: for absolute link and absolute target the resolver succeeds,
joining the directory of the cleaned link with the result and lexically
cleaning yields the cleaned target, and the spec's example resolves to
`../c/lib.so`. -/
theorem hooks_C4 (link target : String) (hl : isAbs link = true)
    (ht : isAbs target = true) :
    (∃ r, resolveTargetRelativeToLink link target = .ok r ∧
      Clean (Dir (Clean link) ++ "/" ++ r) = Clean target) ∧
    resolveTargetRelativeToLink "/a/b/link" "/a/c/lib.so" = .ok "../c/lib.so" :=
  ⟨resolve_roundtrip link target hl ht, rfl⟩

/-- Claim C4, witness at the spec's example paths. -/
theorem hooks_C4_witness :
    isAbs "/a/b/link" = true ∧ isAbs "/a/c/lib.so" = true ∧
    ((∃ r, resolveTargetRelativeToLink "/a/b/link" "/a/c/lib.so" = .ok r ∧
      Clean (Dir (Clean "/a/b/link") ++ "/" ++ r) = Clean "/a/c/lib.so") ∧
      resolveTargetRelativeToLink "/a/b/link" "/a/c/lib.so" = .ok "../c/lib.so") :=
  ⟨by decide, by decide, hooks_C4 "/a/b/link" "/a/c/lib.so" (by decide) (by decide)⟩

/-- Claim C5, counterexample: a relative target is not passed through
unchanged for every link — a non-absolute link is rejected first. -/
theorem hooks_C5_counterexample :
    resolveTargetRelativeToLink "rel/path" "lib.so" =
      .error "The link must be an absolute path: rel/path (target: lib.so)" ∧
    resolveTargetRelativeToLink "rel/path" "lib.so" ≠ .ok "lib.so" := by
  constructor
  · rfl
  · decide

/-- Claim C5 (amended): for every absolute link and non-absolute target the
resolver returns the target unchanged, whatever the (absolute) link is. -/
theorem hooks_C5_amended (link target : String) (hl : isAbs link = true)
    (ht : isAbs target = false) :
    resolveTargetRelativeToLink link target = .ok target :=
  resolve_relative_target link target hl ht

/-- Claim C5, witness. -/
theorem hooks_C5_witness :
    isAbs "/a/b" = true ∧ isAbs "lib.so" = false ∧
    resolveTargetRelativeToLink "/a/b" "lib.so" = .ok "lib.so" :=
  ⟨by decide, by decide, hooks_C5_amended "/a/b" "lib.so" (by decide) (by decide)⟩

/-- Claim C6: a non-absolute link makes the resolver fail with the
invalid-link error, for every target. -/
theorem hooks_C6 (link target : String) (h : isAbs link = false) :
    resolveTargetRelativeToLink link target =
      .error ("The link must be an absolute path: " ++ link ++ " (target: " ++ target ++ ")") :=
  resolve_nonabs_link link target h

/-- Claim C6, witness. -/
theorem hooks_C6_witness :
    isAbs "rel/path" = false ∧
    resolveTargetRelativeToLink "rel/path" "/x" =
      .error ("The link must be an absolute path: " ++ "rel/path" ++ " (target: " ++ "/x" ++ ")") :=
  ⟨by decide, hooks_C6 "rel/path" "/x" (by decide)⟩

/-- Claim C7: an empty update list skips the linker-configuration merge and
the cache regeneration entirely — the conf file, the cache and the
`ldconfig` invocation count are untouched. -/
theorem hooks_C7 (hooks : Hooks) (root : String) (fs : FS)
    (h : hooks.LDCacheUpdates = []) :
    (applyHooksDecoded hooks root fs).1.conf = fs.conf ∧
    (applyHooksDecoded hooks root fs).1.cache = fs.cache ∧
    (applyHooksDecoded hooks root fs).1.ldconfigCount = fs.ldconfigCount := by
  rcases hpair : applySymlinks root fs hooks.Symlinks with ⟨fs1, err⟩
  have hfr := applySymlinks_frame root hooks.Symlinks fs
  rw [hpair] at hfr
  cases err with
  | some msg =>
    have h1 : applyHooksDecoded hooks root fs = (fs1, some msg) := by
      simp only [applyHooksDecoded]
      rw [hpair]
    rw [h1]
    exact hfr
  | none =>
    have h1 : applyHooksDecoded hooks root fs = (fs1, none) := by
      simp only [applyHooksDecoded]
      rw [hpair, h]
      simp
    rw [h1]
    exact hfr

/-- Claim C7, witness. -/
theorem hooks_C7_witness :
    (Hooks.mk "" [] [⟨"/t", "/l"⟩]).LDCacheUpdates = [] ∧
    ((applyHooksDecoded ⟨"", [], [⟨"/t", "/l"⟩]⟩ "/r" ⟨[], [], some ["/x"], true, 3⟩).1.conf =
        (FS.mk [] [] (some ["/x"]) true 3).conf ∧
      (applyHooksDecoded ⟨"", [], [⟨"/t", "/l"⟩]⟩ "/r" ⟨[], [], some ["/x"], true, 3⟩).1.cache =
        (FS.mk [] [] (some ["/x"]) true 3).cache ∧
      (applyHooksDecoded ⟨"", [], [⟨"/t", "/l"⟩]⟩ "/r"
          ⟨[], [], some ["/x"], true, 3⟩).1.ldconfigCount =
        (FS.mk [] [] (some ["/x"]) true 3).ldconfigCount) :=
  ⟨rfl, hooks_C7 ⟨"", [], [⟨"/t", "/l"⟩]⟩ "/r" ⟨[], [], some ["/x"], true, 3⟩ rfl⟩

/-- Claim C8: if applying a plan succeeds, applying it again succeeds as
well and leaves the symlink table unchanged — the second run finds every
link path already occupied, treats the existing entries as success without
inspecting them, and continues. -/
theorem hooks_C8 (hooks : Hooks) (root : String) (fs fs1 : FS)
    (h : applyHooksDecoded hooks root fs = (fs1, none)) :
    (applyHooksDecoded hooks root fs1).2 = none ∧
    (applyHooksDecoded hooks root fs1).1.links = fs1.links := by
  rcases hpair : applySymlinks root fs hooks.Symlinks with ⟨fsS, err⟩
  cases err with
  | some msg =>
    have h1 : applyHooksDecoded hooks root fs = (fsS, some msg) := by
      simp only [applyHooksDecoded]
      rw [hpair]
    rw [h1] at h
    exact absurd (congrArg Prod.snd h) (by simp)
  | none =>
    obtain ⟨hres, hhas, _⟩ := applySymlinks_ok_spec root hooks.Symlinks fs fsS hpair
    obtain ⟨_, hb⟩ := applyHooksDecoded_of_symlinks_ok hooks root fs fsS hpair
    have hfs1 : (applyHooksDecoded hooks root fs).1 = fs1 := congrArg Prod.fst h
    have hlinks : fs1.links = fsS.links := by rw [← hfs1]; exact hb
    have hhas1 : ∀ e ∈ hooks.Symlinks, hasEntry fs1 (joinPath root e.Link) = true := by
      intro e he
      rw [hasEntry_links_eq hlinks]
      exact hhas e he
    obtain ⟨h2a, h2b⟩ := applySymlinks_rerun root hooks.Symlinks fs1 hhas1 hres
    have hpair2 : applySymlinks root fs1 hooks.Symlinks =
        ((applySymlinks root fs1 hooks.Symlinks).1, none) := by
      rw [← h2a]
    obtain ⟨h3a, h3b⟩ := applyHooksDecoded_of_symlinks_ok hooks root fs1 _ hpair2
    exact ⟨h3a, by rw [h3b, h2b]⟩

/-- Claim C8, witness: a one-entry plan with one cache update applied twice. -/
theorem hooks_C8_witness :
    applyHooksDecoded ⟨"", ["/u"], [⟨"/t", "/l/a"⟩]⟩ "/r" ⟨[], [], none, true, 0⟩ =
      (⟨[("/r/l/a", "../t")], ["/r/l", "/r/etc/ld.so.conf.d"], some ["/u"], false, 1⟩, none) ∧
    ((applyHooksDecoded ⟨"", ["/u"], [⟨"/t", "/l/a"⟩]⟩ "/r"
        ⟨[("/r/l/a", "../t")], ["/r/l", "/r/etc/ld.so.conf.d"], some ["/u"], false, 1⟩).2 = none ∧
      (applyHooksDecoded ⟨"", ["/u"], [⟨"/t", "/l/a"⟩]⟩ "/r"
        ⟨[("/r/l/a", "../t")], ["/r/l", "/r/etc/ld.so.conf.d"], some ["/u"], false, 1⟩).1.links =
        (FS.mk [("/r/l/a", "../t")] ["/r/l", "/r/etc/ld.so.conf.d"] (some ["/u"]) false 1).links) :=
  ⟨by decide, hooks_C8 ⟨"", ["/u"], [⟨"/t", "/l/a"⟩]⟩ "/r" ⟨[], [], none, true, 0⟩
    ⟨[("/r/l/a", "../t")], ["/r/l", "/r/etc/ld.so.conf.d"], some ["/u"], false, 1⟩ (by decide)⟩

/-- Claim C9, counterexample: an existing line ` /opt/a ` (whitespace in
the raw line only) is trimmed into the membership set, so the update
`/opt/a` is found present and is not appended — dedup is not asymmetric the
way the claim states for line-side whitespace. -/
theorem hooks_C9_counterexample :
    linkerConfAfter (some [" /opt/a "]) ["/opt/a"] = [" /opt/a "] ∧
    linkerConfAfter (some [" /opt/a "]) ["/opt/a"] ≠ [" /opt/a ", "/opt/a"] := by
  constructor
  · rfl
  · decide

/-- Claim C9 (amended): existing lines enter the membership set trimmed and
each update is looked up verbatim: a single update is appended exactly when
it differs from every trimmed existing line — so an update carrying extra
surrounding whitespace is appended again, while an update equal to the
trimmed form of a raw line is suppressed. -/
theorem hooks_C9_amended (lines : List String) (u : String) :
    linkerConfAfter (some lines) [u] =
      if u ∈ lines.map trimSpace then lines else lines ++ [u] := by
  show lines ++ mergeLinkerEntries (lines.map trimSpace) [u] = _
  by_cases h : u ∈ lines.map trimSpace
  · rw [if_pos h, show mergeLinkerEntries (lines.map trimSpace) [u] = [] by
      simp [mergeLinkerEntries, h], List.append_nil]
  · rw [if_neg h, show mergeLinkerEntries (lines.map trimSpace) [u] = [u] by
      simp [mergeLinkerEntries, h]]

/-- Claim C10: a plan that decodes to empty symlinks and empty updates (for
example the JSON object with no fields) succeeds and leaves the filesystem
state exactly as it was: no directory, no symlink, no conf file, no cache
removal, no subprocess. -/
theorem hooks_C10 (j : Json) (hooks : Hooks) (root : String) (fs : FS)
    (hdec : decodeHooks j = .ok hooks)
    (hsym : hooks.Symlinks = []) (hupd : hooks.LDCacheUpdates = []) :
    ApplyHooksToContainer j root fs = (fs, none) := by
  have h1 : ApplyHooksToContainer j root fs = applyHooksDecoded hooks root fs := by
    simp only [ApplyHooksToContainer]
    rw [hdec]
  rw [h1]
  have h2 : applySymlinks root fs hooks.Symlinks = (fs, none) := by
    rw [hsym]
    rfl
  simp only [applyHooksDecoded]
  rw [h2, hupd]
  simp

/-- Claim C10, witness: the empty JSON object. -/
theorem hooks_C10_witness :
    decodeHooks (Json.obj []) = Except.ok ⟨"", [], []⟩ ∧
    (Hooks.mk "" [] []).Symlinks = [] ∧
    (Hooks.mk "" [] []).LDCacheUpdates = [] ∧
    ApplyHooksToContainer (Json.obj []) "/r" ⟨[], [], none, true, 0⟩ =
      (⟨[], [], none, true, 0⟩, none) :=
  ⟨rfl, rfl, rfl, hooks_C10 (Json.obj []) ⟨"", [], []⟩ "/r" ⟨[], [], none, true, 0⟩ rfl rfl rfl⟩
